import Mathlib

/-!
Verification of the charcoal threat-detection engine's scoring and
amplification pipeline against its specification.

The Rust sources are shallowly embedded: `f64` scoring arithmetic is
modelled over `ℚ` (with a small `FVal` wrapper where NaN semantics of a
comparison cascade matter, and `ℝ` where a square root is taken), strings
are Lean `String`s (a Lean `Char` is one Unicode scalar value, matching
Rust's `char`), fallible operations return `Except`, and the two storage
backends are modelled as pure state transformers.

Sources embedded here:
  - src/scoring/threat.rs        (ThreatWeights, compute_threat_score)
  - src/db/models.rs             (ThreatTier::from_score, AccountScore)
  - src/scoring/behavioral.rs    (behavioral modifier, pile-on detection)
  - src/scoring/profile.rs       (weighted_toxicity, mean toxicity)
  - src/output/mod.rs            (truncate_chars)
  - src/db/queries.rs            (get_ranked_threats, save_embedding - sqlite)
  - src/db/postgres.rs           (save_embedding - postgres)
  - src/bluesky/rate_limit.rs    (is_rate_limit_error, with_retry)
  - src/topics/overlap.rs        (cosine_from_weights)
  - src/constellation/client.rs  (find_amplification_events)
-/

/-- Rust `f64::clamp(lo, hi)`: values below `lo` become `lo`, above `hi`
become `hi`. -/
def clampQ (x lo hi : ℚ) : ℚ := min (max x lo) hi

/-- An `f64` as consumed by the tier cascade: either NaN or a rational
value.  `FVal.fge` models the Rust `>=` comparison, which is false
whenever the left operand is NaN. -/
inductive FVal where
  | nan : FVal
  | val : ℚ → FVal
deriving DecidableEq

/-- Rust `s >= c` for `s : f64`: false on NaN. -/
def FVal.fge (x : FVal) (c : ℚ) : Bool :=
  match x with
  | .nan => false
  | .val q => decide (c ≤ q)

/-- `ThreatTier` from src/db/models.rs. -/
inductive ThreatTier where
  | Low
  | Watch
  | Elevated
  | High
deriving DecidableEq

/-- `ThreatTier::from_score` from src/db/models.rs: a cascade of `>=`
comparisons at 76 / 51 / 26, falling through to `Low` (also for NaN). -/
def ThreatTier.from_score (score : FVal) : ThreatTier :=
  if score.fge 76 then .High
  else if score.fge 51 then .Elevated
  else if score.fge 26 then .Watch
  else .Low

/-- `ThreatTier::as_str` from src/db/models.rs. -/
def ThreatTier.as_str : ThreatTier → String
  | .Low => "Low"
  | .Watch => "Watch"
  | .Elevated => "Elevated"
  | .High => "High"

/-- `ThreatTier::from_score` applied to a non-NaN value. -/
def ThreatTier.fromScoreQ (s : ℚ) : ThreatTier := ThreatTier.from_score (.val s)

/-- `ThreatWeights` from src/scoring/threat.rs. -/
structure ThreatWeights where
  toxicity_weight : ℚ
  overlap_multiplier : ℚ
  overlap_gate_threshold : ℚ
  gate_max_score : ℚ

/-- `ThreatWeights::default()` from src/scoring/threat.rs. -/
def ThreatWeights.default : ThreatWeights :=
  { toxicity_weight := 70
    overlap_multiplier := 1.5
    overlap_gate_threshold := 0.15
    gate_max_score := 25 }

/-- `compute_threat_score` from src/scoring/threat.rs: gate below the
overlap threshold, multiplicative amplification above it, clamped to
[0, 100], tier derived from the clamped score. -/
def compute_threat_score (toxicity topic_overlap : ℚ) (weights : ThreatWeights) :
    ℚ × ThreatTier :=
  let score :=
    if topic_overlap < weights.overlap_gate_threshold then
      min (toxicity * weights.gate_max_score) weights.gate_max_score
    else
      toxicity * weights.toxicity_weight * (1 + topic_overlap * weights.overlap_multiplier)
  let clamped := clampQ score 0 100
  (clamped, ThreatTier.fromScoreQ clamped)

/-- `compute_behavioral_boost` from src/scoring/behavioral.rs.  The source
names the first two parameters `quote_ratio` and `reply_ratio`. -/
def compute_behavioral_boost (quote_frac reply_frac : ℚ) (pile_on : Bool) : ℚ :=
  1 + quote_frac * 0.20 + reply_frac * 0.15 + (if pile_on then 0.15 else 0)

/-- `is_behaviorally_benign` from src/scoring/behavioral.rs: all four
conditions must hold. -/
def is_behaviorally_benign (quote_frac reply_frac : ℚ) (pile_on : Bool)
    (avg_engagement median_engagement : ℚ) : Bool :=
  decide (quote_frac < 0.15) && decide (reply_frac < 0.30) && !pile_on &&
    decide (median_engagement < avg_engagement)

/-- `apply_behavioral_modifier` from src/scoring/behavioral.rs: benign gate
caps at 12.0, otherwise the hostile multiplier is applied and the result is
clamped to [0, 100].  Returns (modified_score, benign_gate_applied). -/
def apply_behavioral_modifier (raw_score quote_frac reply_frac : ℚ) (pile_on : Bool)
    (avg_engagement median_engagement : ℚ) : ℚ × Bool :=
  if is_behaviorally_benign quote_frac reply_frac pile_on avg_engagement median_engagement then
    (min raw_score 12, true)
  else
    (clampQ (raw_score * compute_behavioral_boost quote_frac reply_frac pile_on) 0 100, false)

/-- `ToxicityAttributes` from src/toxicity/traits.rs. -/
structure ToxicityAttributes where
  severe_toxicity : Option ℚ
  identity_attack : Option ℚ
  insult : Option ℚ
  profanity : Option ℚ
  threat : Option ℚ
deriving DecidableEq

/-- `ToxicityResult` from src/toxicity/traits.rs. -/
structure ToxicityResult where
  toxicity : ℚ
  attributes : ToxicityAttributes
deriving DecidableEq

/-- `weighted_toxicity` from src/scoring/profile.rs: if `identity_attack`
is absent the raw `toxicity` is returned; otherwise the weighted category
formula is used with absent categories defaulting to 0 (`unwrap_or(0.0)`). -/
def weighted_toxicity (result : ToxicityResult) : ℚ :=
  match result.attributes.identity_attack with
  | none => result.toxicity
  | some identity_attack =>
      identity_attack * 0.35 + (result.attributes.insult.getD 0) * 0.25 +
        (result.attributes.threat.getD 0) * 0.25 +
        (result.attributes.severe_toxicity.getD 0) * 0.10 +
        (result.attributes.profanity.getD 0) * 0.05

/-- The `avg_toxicity` computation in `build_profile` (src/scoring/profile.rs):
0.0 for an empty result list, otherwise the arithmetic mean of the per-post
weighted toxicities. -/
def avg_weighted_toxicity (results : List ToxicityResult) : ℚ :=
  if results.isEmpty then 0
  else (results.map weighted_toxicity).sum / results.length

/-- `truncate_chars` from src/output/mod.rs: count the Unicode scalars; if
within the limit return the string unchanged, otherwise take the first
`max_chars` scalars and append `"..."`. -/
def truncate_chars (text : String) (max_chars : ℕ) : String :=
  if text.length ≤ max_chars then text
  else String.mk (text.toList.take max_chars) ++ "..."

/-- `AccountScore` from src/db/models.rs (the JSON evidence blob is kept as
its stored string form). -/
structure AccountScore where
  did : String
  handle : String
  toxicity_score : Option ℚ
  topic_overlap : Option ℚ
  threat_score : Option ℚ
  threat_tier : Option String
  posts_analyzed : ℕ
  top_toxic_posts : String
  scored_at : String
  behavioral_signals : Option String
deriving DecidableEq

/-- The SQL `WHERE threat_score >= ?1` filter of `get_ranked_threats`
(src/db/queries.rs): a NULL score never satisfies the comparison. -/
def scorePasses (min_score : ℚ) (r : AccountScore) : Bool :=
  match r.threat_score with
  | none => false
  | some s => decide (min_score ≤ s)

/-- The per-row tier recomputation in `get_ranked_threats`
(src/db/queries.rs): `threat_score.map(|s| ThreatTier::from_score(s).to_string())`. -/
def recomputeTier (r : AccountScore) : AccountScore :=
  { r with threat_tier := r.threat_score.map (fun s => (ThreatTier.fromScoreQ s).as_str) }

/-- The SQL `ORDER BY threat_score DESC` ordering of `get_ranked_threats`. -/
def rankDesc (a b : AccountScore) : Prop :=
  b.threat_score.getD 0 ≤ a.threat_score.getD 0

instance : DecidableRel rankDesc := fun a b =>
  inferInstanceAs (Decidable (b.threat_score.getD 0 ≤ a.threat_score.getD 0))

/-- `get_ranked_threats` from src/db/queries.rs over a modelled table of
rows: filter by the minimum score, order by score descending, and
recompute the tier of every returned row from its stored score. -/
def get_ranked_threats (rows : List AccountScore) (min_score : ℚ) : List AccountScore :=
  (List.insertionSort rankDesc (rows.filter (scorePasses min_score))).map recomputeTier

/-- Byte-lexicographic comparison of two strings as lists of Unicode
scalars (UTF-8 byte order and scalar order agree), modelling Rust's `Ord`
for `String` as used by `sort_by_key` in `detect_pile_on_participants`. -/
def lexLe : List Char → List Char → Bool
  | [], _ => true
  | _ :: _, [] => false
  | a :: as, b :: bs => if a < b then true else if b < a then false else lexLe as bs

/-- String comparison on the scalar sequences. -/
def strLexLe (a b : String) : Bool := lexLe a.toList b.toList

/-- ASCII lower-casing of one character, modelling the effect of Rust's
`str::to_lowercase` on the ASCII patterns matched by `is_rate_limit_error`. -/
def lowerA (c : Char) : Char :=
  if 'A' ≤ c ∧ c ≤ 'Z' then Char.ofNat (c.toNat + 32) else c

/-- ASCII lower-casing of a string. -/
def strToLower (s : String) : String := String.mk (s.toList.map lowerA)

/-- Substring containment on the scalar sequences, modelling Rust's
`str::contains`. -/
def containsSub (needle hay : String) : Bool :=
  decide (needle.toList.IsInfix hay.toList)

/-- `is_rate_limit_error` from src/bluesky/rate_limit.rs, with the error
modelled by its rendered message: contains "429", or case-insensitively
"rate limit" or "ratelimit". -/
def is_rate_limit_error (err : String) : Bool :=
  containsSub "429" err || containsSub "rate limit" (strToLower err) ||
    containsSub "ratelimit" (strToLower err)

/-- `MAX_RETRIES` from src/bluesky/rate_limit.rs. -/
def MAX_RETRIES : ℕ := 5

/-- The backoff duration in seconds computed on retry number `attempt`
(the source computes `BASE_BACKOFF.saturating_mul(1 << attempt).min(MAX_BACKOFF)`
with a 2-second base and a 60-second cap; at `attempt ≤ 5` the saturating
multiply never saturates). -/
def backoffSecs (attempt : ℕ) : ℕ := min (2 * 2 ^ attempt) 60

/-- The jitter factor from src/bluesky/rate_limit.rs:
`0.75 + (nanos % 500) as f64 / 1000.0` for the sampled nanosecond value. -/
def jitterFactor (nanos : ℕ) : ℚ := 0.75 + (nanos % 500 : ℕ) / 1000

/-- The jittered sleep before a retry, in seconds. -/
def jitteredBackoff (attempt nanos : ℕ) : ℚ :=
  (backoffSecs attempt : ℚ) * jitterFactor nanos

/-- The retry loop of `with_retry` from src/bluesky/rate_limit.rs.  The
`k`-th invocation of the wrapped operation is `op k`; `nanos k` is the
nanosecond value sampled for the jitter of the `k`-th retry.  Returns the
final result, the total number of invocations, and the list of sleeps (in
seconds) performed between invocations. -/
def with_retry_aux (op : ℕ → Except String α) (nanos : ℕ → ℕ) (attempt calls : ℕ)
    (sleeps : List ℚ) : Except String α × ℕ × List ℚ :=
  match op calls with
  | .ok v => (.ok v, calls + 1, sleeps)
  | .error e =>
    if is_rate_limit_error e = false ∨ MAX_RETRIES ≤ attempt then
      (.error e, calls + 1, sleeps)
    else
      with_retry_aux op nanos (attempt + 1) (calls + 1)
        (sleeps ++ [jitteredBackoff (attempt + 1) (nanos attempt)])
termination_by MAX_RETRIES - attempt
decreasing_by
  simp only [not_or, not_le, MAX_RETRIES] at *
  omega

/-- `with_retry` from src/bluesky/rate_limit.rs (attempt counter starts at
zero). -/
def with_retry (op : ℕ → Except String α) (nanos : ℕ → ℕ) : Except String α × ℕ × List ℚ :=
  with_retry_aux op nanos 0 0 []

/-- The singleton `topic_fingerprint` row (id = 1); the embedding vector is
a nullable column on it.  JSON (de)serialization of the vector is
abstracted to the vector value itself. -/
structure FingerprintRow where
  fingerprint_json : String
  post_count : ℕ
  embedding_vector : Option (List ℚ)
deriving DecidableEq

/-- The database state relevant to the fingerprint/embedding operations. -/
structure DbState where
  topic_fingerprint : Option FingerprintRow
deriving DecidableEq

namespace SqliteDb

/-- `save_embedding` from src/db/queries.rs (sqlite backend): a plain
`UPDATE topic_fingerprint SET embedding_vector = ?1 WHERE id = 1`.  When no
fingerprint row exists the UPDATE matches zero rows and the call still
returns Ok. -/
def save_embedding (st : DbState) (v : List ℚ) : Except String Unit × DbState :=
  match st.topic_fingerprint with
  | none => (.ok (), st)
  | some row => (.ok (), ⟨some { row with embedding_vector := some v }⟩)

/-- `get_embedding` from src/db/queries.rs: NULL row or NULL column both
yield None. -/
def get_embedding (st : DbState) : Except String (Option (List ℚ)) :=
  .ok (st.topic_fingerprint.bind (fun r => r.embedding_vector))

end SqliteDb

namespace PgDb

/-- `save_embedding` from src/db/postgres.rs: the same UPDATE, but the
implementation checks `rows_affected` and fails when no fingerprint row
exists. -/
def save_embedding (st : DbState) (v : List ℚ) : Except String Unit × DbState :=
  match st.topic_fingerprint with
  | none => (.error "save_embedding: no fingerprint row found", st)
  | some row => (.ok (), ⟨some { row with embedding_vector := some v }⟩)

/-- `get_embedding` from src/db/postgres.rs. -/
def get_embedding (st : DbState) : Except String (Option (List ℚ)) :=
  .ok (st.topic_fingerprint.bind (fun r => r.embedding_vector))

end PgDb

/-- A `HashMap<String, f64>` keyword-weight map as consumed by
`cosine_from_weights` (src/topics/overlap.rs): a finite key set together
with the weight of each key. -/
structure WeightMap where
  keys : Finset String
  w : String → ℚ

/-- The dot product in `cosine_from_weights`: iterate over the first map
and multiply with the second map's value for each key present in both. -/
def dotQ (a b : WeightMap) : ℚ := ∑ k ∈ a.keys ∩ b.keys, a.w k * b.w k

/-- The squared magnitude `values().map(|v| v * v).sum()` of one map. -/
def sumSqQ (a : WeightMap) : ℚ := ∑ k ∈ a.keys, a.w k * a.w k

/-- The magnitude `sqrt(sum of squares)` of one map. -/
noncomputable def magnitude (a : WeightMap) : ℝ := Real.sqrt ((sumSqQ a : ℚ) : ℝ)

/-- Rust `f64::clamp` over the reals. -/
def clampR (x lo hi : ℝ) : ℝ := min (max x lo) hi

/-- `cosine_from_weights` from src/topics/overlap.rs: 0 when either map is
empty, 0 when the product of magnitudes is 0, otherwise the dot product
over the magnitude product clamped to [0, 1]. -/
noncomputable def cosine_from_weights (a b : WeightMap) : ℝ :=
  if a.keys = ∅ ∨ b.keys = ∅ then 0
  else
    let denominator := magnitude a * magnitude b
    if denominator = 0 then 0
    else clampR ((dotQ a b : ℚ) / denominator) 0 1

/-- Scaling every weight of a map by a constant (the key set is unchanged,
exactly as when every value of the Rust `HashMap` is multiplied by a
constant). -/
def scaleMap (c : ℚ) (a : WeightMap) : WeightMap := ⟨a.keys, fun k => c * a.w k⟩

/-- A backlink record from the Constellation API
(src/constellation/client.rs). -/
structure BacklinkRecord where
  did : String
  collection : String
  rkey : String
deriving DecidableEq

/-- The amplifier-post URI `format!("at://{}/{}/{}", did, collection, rkey)`
built in `find_amplification_events`. -/
def ampPostUri (r : BacklinkRecord) : String :=
  "at://" ++ r.did ++ "/" ++ r.collection ++ "/" ++ r.rkey

/-- `AmplificationNotification` as produced by `find_amplification_events`
(src/constellation/client.rs). -/
structure AmplificationNotification where
  event_type : String
  amplifier_did : String
  amplifier_handle : String
  original_post_uri : Option String
  amplifier_post_uri : String
deriving DecidableEq

/-- The event pushed for one backlink record. -/
def mkEvent (kind subject : String) (r : BacklinkRecord) : AmplificationNotification :=
  ⟨kind, r.did, r.did, some subject, ampPostUri r⟩

/-- The two backlink queries issued per subject URI. -/
inductive LinkSource where
  | quote
  | repost
deriving DecidableEq

/-- The record list a backlink query contributes: a failed query is logged
and skipped, contributing nothing (src/constellation/client.rs matches on
the query result and only iterates records in the Ok arm). -/
def recsOf (f : String → LinkSource → Except String (List BacklinkRecord))
    (u : String) (s : LinkSource) : List BacklinkRecord :=
  match f u s with
  | .ok rs => rs
  | .error _ => []

/-- The inner loop of `find_amplification_events` over one response's
records: push an event only when `seen_uris.insert(amp_uri)` reports the
URI as new. -/
def processRecords (kind subject : String) (recs : List BacklinkRecord)
    (st : List AmplificationNotification × Finset String) :
    List AmplificationNotification × Finset String :=
  recs.foldl
    (fun st r =>
      if ampPostUri r ∈ st.2 then st
      else (st.1 ++ [mkEvent kind subject r], insert (ampPostUri r) st.2))
    st

/-- Processing of one subject URI: the quote query first, then the repost
query. -/
def processUri (f : String → LinkSource → Except String (List BacklinkRecord))
    (u : String) (st : List AmplificationNotification × Finset String) :
    List AmplificationNotification × Finset String :=
  processRecords "repost" u (recsOf f u .repost) (processRecords "quote" u (recsOf f u .quote) st)

/-- `find_amplification_events` from src/constellation/client.rs, with the
backlink API modelled by `f`. -/
def find_amplification_events (post_uris : List String)
    (f : String → LinkSource → Except String (List BacklinkRecord)) :
    List AmplificationNotification :=
  (post_uris.foldl (fun st u => processUri f u st) ([], ∅)).1

/-- All amplifier-post URIs contributed by one subject's two queries. -/
def uriRecs (f : String → LinkSource → Except String (List BacklinkRecord))
    (u : String) : List String :=
  (recsOf f u .quote).map ampPostUri ++ (recsOf f u .repost).map ampPostUri

/-- The value of one decimal digit character. -/
def digitVal (c : Char) : Option ℕ :=
  if c.isDigit then some (c.toNat - 48) else none

/-- A two-digit decimal field. -/
def parse2 (a b : Char) : Option ℕ :=
  match digitVal a, digitVal b with
  | some x, some y => some (10 * x + y)
  | _, _ => none

/-- A four-digit decimal field. -/
def parse4 (a b c d : Char) : Option ℕ :=
  match digitVal a, digitVal b, digitVal c, digitVal d with
  | some x, some y, some z, some u => some (1000 * x + 100 * y + 10 * z + u)
  | _, _, _, _ => none

/-- Days from 1970-01-01 of a civil date (the standard era-based civil
calendar algorithm; all divisions act on non-negative operands after the
era shift). -/
def daysFromCivil (y m d : ℤ) : ℤ :=
  let y2 := if m ≤ 2 then y - 1 else y
  let era := (if 0 ≤ y2 then y2 else y2 - 399) / 400
  let yoe := y2 - era * 400
  let mp := (m + 9) % 12
  let doy := (153 * mp + 2) / 5 + d - 1
  let doe := yoe * 365 + yoe / 4 - yoe / 100 + doy
  era * 146097 + doe - 719468

/-- The numeric UTC offset of an RFC 3339 suffix: `Z`, `+HH:MM` or
`-HH:MM`, in seconds. -/
def parseOffset : List Char → Option ℤ
  | ['Z'] => some 0
  | ['+', a, b, ':', c, d] =>
    match parse2 a b, parse2 c d with
    | some h, some m => some ((h : ℤ) * 3600 + (m : ℤ) * 60)
    | _, _ => none
  | ['-', a, b, ':', c, d] =>
    match parse2 a b, parse2 c d with
    | some h, some m => some (-((h : ℤ) * 3600 + (m : ℤ) * 60))
    | _, _ => none
  | _ => none

/-- Modelled from the chrono crate (an external dependency of the
repository): `DateTime::parse_from_rfc3339(ts)` followed by
`.timestamp()`, restricted to whole-second timestamps
`YYYY-MM-DDTHH:MM:SS` with a `Z` or `±HH:MM` offset (fractional seconds,
which `.timestamp()` discards, are omitted from the model).  Returns the
Unix epoch second of the instant: the naive civil time minus the offset. -/
def rfc3339ToSecs (s : String) : Option ℤ :=
  match s.toList.take 19, s.toList.drop 19 with
  | [y1, y2, y3, y4, s1, m1, m2, s2, d1, d2, st, h1, h2, s3, n1, n2, s4, c1, c2], rest =>
    if s1 = '-' ∧ s2 = '-' ∧ st = 'T' ∧ s3 = ':' ∧ s4 = ':' then
      match parse4 y1 y2 y3 y4, parse2 m1 m2, parse2 d1 d2,
          parse2 h1 h2, parse2 n1 n2, parse2 c1 c2, parseOffset rest with
      | some y, some mo, some da, some h, some mi, some sec, some off =>
        if 1 ≤ mo ∧ mo ≤ 12 ∧ 1 ≤ da ∧ da ≤ 31 ∧ h ≤ 23 ∧ mi ≤ 59 ∧ sec ≤ 60 then
          some (daysFromCivil y mo da * 86400 + (h : ℤ) * 3600 + (mi : ℤ) * 60 + (sec : ℤ) - off)
        else none
      | _, _, _, _, _, _, _ => none
    else none
  | _, _ => none

/-- `PILE_ON_THRESHOLD` from src/scoring/behavioral.rs. -/
def PILE_ON_THRESHOLD : ℕ := 5

/-- `PILE_ON_WINDOW_SECS` from src/scoring/behavioral.rs. -/
def PILE_ON_WINDOW_SECS : ℤ := 24 * 60 * 60

/-- An `(amplifier_did, original_post_uri, detected_at)` tuple as consumed
by `detect_pile_on_participants`. -/
abbrev PileEvent := String × String × String

/-- The `(did, ts)` pairs grouped for one post URI, in input order (the
`by_post` HashMap of src/scoring/behavioral.rs preserves the order of
insertion within each group). -/
def postEvents (events : List PileEvent) (uri : String) : List (String × String) :=
  (events.filter (fun e => e.2.1 = uri)).map (fun e => (e.1, e.2.2))

/-- The sort key `sort_by_key(|&(_, ts)| ts.to_string())`: compare the
timestamp strings lexicographically. -/
def byTs (a b : String × String) : Prop := strLexLe a.2 b.2 = true

instance : DecidableRel byTs := fun a b =>
  inferInstanceAs (Decidable (strLexLe a.2 b.2 = true))

/-- The parse step of `detect_pile_on_participants`: keep the events whose
timestamp parses, paired with the parsed epoch second. -/
def parsedEvents (l : List (String × String)) : List (String × ℤ) :=
  l.filterMap (fun p => (rfc3339ToSecs p.2).map (fun t => (p.1, t)))

/-- The sliding windows of `detect_pile_on_participants`: for every suffix,
starting from its head's timestamp, collect the distinct DIDs of the
events up to the first one beyond `window_start + 24h` (the inner loop
breaks there). -/
def windowSets (l : List (String × ℤ)) : List (Finset String) :=
  l.tails.filterMap
    (fun suf =>
      match suf with
      | [] => none
      | p :: rest =>
        some (((p :: rest).takeWhile
          (fun q => decide (q.2 ≤ p.2 + PILE_ON_WINDOW_SECS))).map Prod.fst).toFinset)

/-- The per-post part of `detect_pile_on_participants`: sort the group by
timestamp string, parse, skip groups with fewer than 5 parsed events, and
union every window that reaches 5 distinct DIDs. -/
def perPost (events : List PileEvent) (uri : String) : Finset String :=
  let p := parsedEvents (List.insertionSort byTs (postEvents events uri))
  if p.length < PILE_ON_THRESHOLD then ∅
  else (windowSets p).foldr (fun w acc => if PILE_ON_THRESHOLD ≤ w.card then w ∪ acc else acc) ∅

/-- `detect_pile_on_participants` from src/scoring/behavioral.rs: group by
post URI and union the per-post results. -/
def detect_pile_on_participants (events : List PileEvent) : Finset String :=
  ((events.map (fun e => e.2.1)).dedup).foldr (fun uri acc => perPost events uri ∪ acc) ∅

/-- A timestamp within the closed 24-hour window starting at `T` (the
inner loop of the detector uses `ts > window_end` to break, so the window
is inclusive at both ends). -/
def inWindowProp (T : ℤ) (ts : String) : Prop :=
  match rfc3339ToSecs ts with
  | some t => T ≤ t ∧ t ≤ T + PILE_ON_WINDOW_SECS
  | none => False

instance (T : ℤ) (ts : String) : Decidable (inWindowProp T ts) := by
  unfold inWindowProp
  exact match rfc3339ToSecs ts with
  | some _ => instDecidableAnd
  | none => instDecidableFalse

/-- Amplifier `d` has an event on post `uri` inside the 24-hour window
starting at `T`. -/
def hasClusterEvent (events : List PileEvent) (uri : String) (T : ℤ) (d : String) : Prop :=
  ∃ e ∈ events, e.1 = d ∧ e.2.1 = uri ∧ inWindowProp T e.2.2

instance (events : List PileEvent) (uri : String) (T : ℤ) (d : String) :
    Decidable (hasClusterEvent events uri T d) :=
  List.decidableBEx _ events

/-- Lexicographic order of two timestamp strings implies order of their
parsed instants (vacuous when either fails to parse). -/
def tsLeOk (ts1 ts2 : String) : Prop :=
  ∀ t1 t2, rfc3339ToSecs ts1 = some t1 → rfc3339ToSecs ts2 = some t2 →
    strLexLe ts1 ts2 = true → t1 ≤ t2

instance (ts1 ts2 : String) : Decidable (tsLeOk ts1 ts2) :=
  match h1 : rfc3339ToSecs ts1, h2 : rfc3339ToSecs ts2 with
  | some t1, some t2 =>
    if hle : strLexLe ts1 ts2 = true then
      if hq : t1 ≤ t2 then
        .isTrue (fun a b ha hb _ => by
          rw [h1] at ha
          rw [h2] at hb
          cases ha
          cases hb
          exact hq)
      else
        .isFalse (fun h => hq (h t1 t2 h1 h2 hle))
    else
      .isTrue (fun a b _ _ hc => absurd hc hle)
  | some _, none =>
    .isTrue (fun a b _ hb => by rw [h2] at hb; cases hb)
  | none, _ =>
    .isTrue (fun a b ha => by rw [h1] at ha; cases ha)

/-- The timestamps of all events on post `uri` are coherent: lexicographic
string order agrees with parsed chronological order.  This holds in
particular for canonical fixed-width UTC (`...Z`) timestamps. -/
def tsCoherent (events : List PileEvent) (uri : String) : Prop :=
  ∀ e1 ∈ events, ∀ e2 ∈ events, e1.2.1 = uri → e2.2.1 = uri → tsLeOk e1.2.2 e2.2.2

instance (events : List PileEvent) (uri : String) : Decidable (tsCoherent events uri) :=
  List.decidableBAll _ events

/-- The spec's duplicate-amplifier example (§8 scenario 7): five events on
one post but only four distinct amplifiers. -/
def dupAmplifierEvents : List PileEvent :=
  [("did:a", "at://post/1", "2026-02-19T10:00:00Z"),
   ("did:a", "at://post/1", "2026-02-19T10:30:00Z"),
   ("did:b", "at://post/1", "2026-02-19T11:00:00Z"),
   ("did:c", "at://post/1", "2026-02-19T12:00:00Z"),
   ("did:d", "at://post/1", "2026-02-19T13:00:00Z")]

/-- Five distinct amplifiers of one post whose instants all lie within a
single 24-hour window, but whose RFC 3339 offsets make lexicographic
string order disagree with chronological order: the string-earliest event
(`did:a`) is chronologically latest among the first five instants, and the
extra `did:f` event sits lexicographically right after it with an instant
just over 24 hours later. -/
def skewedOffsetEvents : List PileEvent :=
  [("did:a", "at://post/1", "2024-01-01T00:00:00-23:00"),
   ("did:f", "at://post/1", "2024-01-02T00:00:01-23:00"),
   ("did:b", "at://post/1", "2024-01-03T00:00:00+23:00"),
   ("did:c", "at://post/1", "2024-01-03T00:00:01+23:00"),
   ("did:d", "at://post/1", "2024-01-03T00:00:02+23:00"),
   ("did:e", "at://post/1", "2024-01-03T00:00:03+23:00")]

/-- The five-amplifier cluster contained in `skewedOffsetEvents`. -/
def skewedCluster : Finset String := {"did:a", "did:b", "did:c", "did:d", "did:e"}

/-- The spec's five-distinct-amplifier example (§8 scenario 6): five
distinct amplifiers of one post at one-hour intervals. -/
def hourlyEvents : List PileEvent :=
  [("did:a", "at://post/1", "2026-02-19T10:00:00Z"),
   ("did:b", "at://post/1", "2026-02-19T11:00:00Z"),
   ("did:c", "at://post/1", "2026-02-19T12:00:00Z"),
   ("did:d", "at://post/1", "2026-02-19T13:00:00Z"),
   ("did:e", "at://post/1", "2026-02-19T14:00:00Z")]

/-- The five distinct amplifiers of `hourlyEvents`. -/
def hourlyCluster : Finset String := {"did:a", "did:b", "did:c", "did:d", "did:e"}

theorem clampQ_nonneg (x hi : ℚ) (h : 0 ≤ hi) : 0 ≤ clampQ x 0 hi :=
  le_min (le_max_right x 0) h

theorem clampQ_le (x lo hi : ℚ) : clampQ x lo hi ≤ hi := min_le_right _ _

theorem qlt_gate_default : (0.02 : ℚ) < ThreatWeights.default.overlap_gate_threshold := by
  norm_num [ThreatWeights.default]

theorem qbenign_example : is_behaviorally_benign 0.05 0.10 false 30 10 = true := by
  norm_num [is_behaviorally_benign, Bool.and_eq_true, decide_eq_true_eq]

theorem fromScoreQ_eq (s : ℚ) :
    ThreatTier.fromScoreQ s =
      if 76 ≤ s then .High else if 51 ≤ s then .Elevated else if 26 ≤ s then .Watch
      else .Low := by
  simp [ThreatTier.fromScoreQ, ThreatTier.from_score, FVal.fge]

/-- Claim C1: `compute_threat_score` returns `min(t * gate_max_score,
gate_max_score)` when the overlap is below the gate threshold and
`t * toxicity_weight * (1 + o * overlap_multiplier)` otherwise, clamps the
result to [0, 100], derives the tier from the clamped score, and on the
default weights maps (t=0.8, o=0.25) to (77.0, High) and (t=0.9, o=0.02)
to the gated (22.5, Low). -/
theorem C1_compute_threat_score (t o : ℚ) (w : ThreatWeights) :
    (o < w.overlap_gate_threshold →
      (compute_threat_score t o w).1 = clampQ (min (t * w.gate_max_score) w.gate_max_score) 0 100)
    ∧ (¬ o < w.overlap_gate_threshold →
      (compute_threat_score t o w).1 =
        clampQ (t * w.toxicity_weight * (1 + o * w.overlap_multiplier)) 0 100)
    ∧ (0 ≤ (compute_threat_score t o w).1 ∧ (compute_threat_score t o w).1 ≤ 100)
    ∧ (compute_threat_score t o w).2 = ThreatTier.fromScoreQ (compute_threat_score t o w).1
    ∧ compute_threat_score 0.8 0.25 ThreatWeights.default = (77, ThreatTier.High)
    ∧ compute_threat_score 0.9 0.02 ThreatWeights.default = (22.5, ThreatTier.Low) := by
  refine ⟨fun h => by simp [compute_threat_score, h],
    fun h => by simp [compute_threat_score, h],
    ⟨clampQ_nonneg _ _ (by norm_num), clampQ_le _ _ _⟩, rfl, ?_, ?_⟩
  · have hgate : ¬ (0.25 : ℚ) < ThreatWeights.default.overlap_gate_threshold := by
      norm_num [ThreatWeights.default]
    have hs : (compute_threat_score 0.8 0.25 ThreatWeights.default).1 = 77 := by
      simp only [compute_threat_score, if_neg hgate]
      norm_num [ThreatWeights.default, clampQ]
    have ht : (compute_threat_score 0.8 0.25 ThreatWeights.default).2 = ThreatTier.High := by
      have h2 : (compute_threat_score 0.8 0.25 ThreatWeights.default).2 =
          ThreatTier.fromScoreQ (compute_threat_score 0.8 0.25 ThreatWeights.default).1 := rfl
      rw [h2, hs, fromScoreQ_eq]
      norm_num
    exact Prod.ext hs ht
  · have hgate : (0.02 : ℚ) < ThreatWeights.default.overlap_gate_threshold := by
      norm_num [ThreatWeights.default]
    have hs : (compute_threat_score 0.9 0.02 ThreatWeights.default).1 = 22.5 := by
      simp only [compute_threat_score, if_pos hgate]
      norm_num [ThreatWeights.default, clampQ]
    have ht : (compute_threat_score 0.9 0.02 ThreatWeights.default).2 = ThreatTier.Low := by
      have h2 : (compute_threat_score 0.9 0.02 ThreatWeights.default).2 =
          ThreatTier.fromScoreQ (compute_threat_score 0.9 0.02 ThreatWeights.default).1 := rfl
      rw [h2, hs, fromScoreQ_eq]
      norm_num
    exact Prod.ext hs ht

theorem C1_compute_threat_score_witness :
    (0.02 : ℚ) < ThreatWeights.default.overlap_gate_threshold ∧
    (compute_threat_score 0.9 0.02 ThreatWeights.default).1 =
      clampQ (min (0.9 * ThreatWeights.default.gate_max_score)
        ThreatWeights.default.gate_max_score) 0 100 :=
  ⟨qlt_gate_default,
    (C1_compute_threat_score 0.9 0.02 ThreatWeights.default).1 qlt_gate_default⟩

/-- Claim C2: the benign gate of `apply_behavioral_modifier` fires iff all
four conditions hold (quote ratio < 0.15, reply ratio < 0.30, no pile-on,
engagement above the median), in which case the final score is
`min(raw, 12)`; otherwise the raw score is multiplied by
`1 + 0.20·qr + 0.15·rr + (0.15 if pile_on)` and clamped to [0, 100]; the
spec's example (raw 21.35, qr 0.30, rr 0.20, pile-on, eng 8, median 10)
yields boost 1.24 and final score 26.474. -/
theorem C2_apply_behavioral_modifier (raw qf rf : ℚ) (pile : Bool) (eng med : ℚ) :
    (is_behaviorally_benign qf rf pile eng med = true ↔
      (qf < 0.15 ∧ rf < 0.30 ∧ pile = false ∧ med < eng))
    ∧ (is_behaviorally_benign qf rf pile eng med = true →
        apply_behavioral_modifier raw qf rf pile eng med = (min raw 12, true))
    ∧ (is_behaviorally_benign qf rf pile eng med = false →
        apply_behavioral_modifier raw qf rf pile eng med =
          (clampQ (raw * (1 + qf * 0.20 + rf * 0.15 + (if pile then 0.15 else 0))) 0 100, false))
    ∧ compute_behavioral_boost 0.30 0.20 true = 1.24
    ∧ apply_behavioral_modifier 21.35 0.30 0.20 true 8 10 = (26.474, false) := by
  refine ⟨?_, ?_, ?_, ?_, ?_⟩
  · simp [is_behaviorally_benign, Bool.and_eq_true, decide_eq_true_eq,
      Bool.not_eq_true', and_assoc]
  · intro h
    simp [apply_behavioral_modifier, h]
  · intro h
    simp [apply_behavioral_modifier, h, compute_behavioral_boost]
  · norm_num [compute_behavioral_boost]
  · have hben : is_behaviorally_benign 0.30 0.20 true 8 10 = false := by
      simp [is_behaviorally_benign]
    simp only [apply_behavioral_modifier, hben, Bool.false_eq_true, if_false]
    norm_num [compute_behavioral_boost, clampQ]

theorem C2_apply_behavioral_modifier_witness :
    is_behaviorally_benign 0.05 0.10 false 30 10 = true ∧
    apply_behavioral_modifier 50 0.05 0.10 false 30 10 = (min 50 12, true) :=
  ⟨qbenign_example,
    (C2_apply_behavioral_modifier 50 0.05 0.10 false 30 10).2.1 qbenign_example⟩

/-- Claim C5 (amended): the per-post weighted toxicity equals
`0.35·identity_attack + 0.25·insult + 0.25·threat + 0.10·severe + 0.05·profanity`
whenever `identity_attack` is present (absent categories default to 0),
and falls back to the raw toxicity exactly when `identity_attack` is
absent — even if other categories are present; the per-account toxicity is
the arithmetic mean over the sample, 0 for an empty sample. -/
theorem C5_weighted_toxicity (r : ToxicityResult) (results : List ToxicityResult) :
    (r.attributes.identity_attack = none → weighted_toxicity r = r.toxicity)
    ∧ (∀ ia, r.attributes.identity_attack = some ia →
        weighted_toxicity r = ia * 0.35 + (r.attributes.insult.getD 0) * 0.25 +
          (r.attributes.threat.getD 0) * 0.25 + (r.attributes.severe_toxicity.getD 0) * 0.10 +
          (r.attributes.profanity.getD 0) * 0.05)
    ∧ (∀ ia ins th sev prof tox,
        r = ⟨tox, ⟨some sev, some ia, some ins, some prof, some th⟩⟩ →
        weighted_toxicity r = 0.35 * ia + 0.25 * ins + 0.25 * th + 0.10 * sev + 0.05 * prof)
    ∧ avg_weighted_toxicity [] = 0
    ∧ (results ≠ [] →
        avg_weighted_toxicity results = (results.map weighted_toxicity).sum / results.length) := by
  refine ⟨fun h => by simp [weighted_toxicity, h], fun ia h => by simp [weighted_toxicity, h],
    ?_, by simp [avg_weighted_toxicity], fun h => by simp [avg_weighted_toxicity, h]⟩
  intro ia ins th sev prof tox h
  subst h
  simp [weighted_toxicity]
  ring

theorem C5_weighted_toxicity_witness :
    ((⟨0.7, ⟨none, none, none, none, none⟩⟩ : ToxicityResult).attributes.identity_attack = none)
    ∧ weighted_toxicity ⟨0.7, ⟨none, none, none, none, none⟩⟩ = (0.7 : ℚ) :=
  ⟨rfl, (C5_weighted_toxicity ⟨0.7, ⟨none, none, none, none, none⟩⟩ []).1 rfl⟩

/-- Claim C5 counterexample: a result whose `insult` category is present
but whose `identity_attack` is absent is scored with the raw toxicity
(0.5), not with the weighted category formula (which would give 0.25) —
so "falls back to raw only when no categories are present" is false. -/
theorem C5_counterexample :
    ((⟨0.5, ⟨none, none, some 1, none, none⟩⟩ : ToxicityResult).attributes.insult ≠ none)
    ∧ weighted_toxicity ⟨0.5, ⟨none, none, some 1, none, none⟩⟩ = 0.5
    ∧ (0.5 : ℚ) ≠ 0.35 * 0 + 0.25 * 1 + 0.25 * 0 + 0.10 * 0 + 0.05 * 0 := by
  refine ⟨by simp, by simp [weighted_toxicity], by norm_num⟩

/-- Claim C9 (amended): `truncate_chars` returns the string unchanged when
it has at most `n` Unicode scalars, and otherwise returns exactly the
first `n` scalars followed by `"..."` (three ASCII dots — not the single
`…` scalar claimed by the spec); it operates on whole scalars and never
splits one; `truncate_chars("café résumé", 4) = "café..."`. -/
theorem C9_truncate_chars (s : String) (n : ℕ) :
    (s.length ≤ n → truncate_chars s n = s)
    ∧ (n < s.length →
        truncate_chars s n = String.mk (s.toList.take n) ++ "..." ∧
        (truncate_chars s n).length = n + 3 ∧
        (truncate_chars s n).toList.take n = s.toList.take n)
    ∧ truncate_chars "café résumé" 4 = "café..." := by
  refine ⟨fun h => by simp [truncate_chars, h], fun h => ?_, by decide⟩
  have hne : ¬ s.length ≤ n := not_le.mpr h
  have htl : (s.toList.take n).length = n := by
    rw [List.length_take]
    exact min_eq_left (le_of_lt h)
  have heq : truncate_chars s n = String.mk (s.toList.take n) ++ "..." := by
    simp [truncate_chars, hne]
  refine ⟨heq, ?_, ?_⟩
  · rw [heq, String.length_append]
    show (s.toList.take n).length + "...".length = n + 3
    rw [htl]
    rfl
  · rw [heq]
    have hdata : (String.mk (s.toList.take n) ++ "...").toList =
        s.toList.take n ++ "...".toList := by
      simp [String.toList, String.data_append]
    rw [hdata, List.take_append_of_le_length (le_of_eq htl.symm), List.take_take, min_self]

theorem C9_truncate_chars_witness :
    "café résumé".length ≤ 20 ∧ truncate_chars "café résumé" 20 = "café résumé" :=
  ⟨by decide, (C9_truncate_chars "café résumé" 20).1 (by decide)⟩

/-- Claim C9 counterexample: the suffix appended by `truncate_chars` is
the three-character ASCII `"..."`, not the single `…` scalar: on the
spec's own example the function returns `"café..."`, not `"café…"`. -/
theorem C9_counterexample :
    truncate_chars "café résumé" 4 = "café..." ∧
    truncate_chars "café résumé" 4 ≠ "café…" := by
  constructor <;> decide

theorem sumSqQ_nonneg (a : WeightMap) : 0 ≤ sumSqQ a :=
  Finset.sum_nonneg fun _ _ => mul_self_nonneg _

theorem dotQ_comm (a b : WeightMap) : dotQ a b = dotQ b a := by
  rw [dotQ, dotQ, Finset.inter_comm]
  exact Finset.sum_congr rfl fun _ _ => mul_comm _ _

theorem dotQ_self (a : WeightMap) : dotQ a a = sumSqQ a := by
  rw [dotQ, sumSqQ, Finset.inter_self]

theorem magnitude_eq_zero (a : WeightMap) : magnitude a = 0 ↔ sumSqQ a = 0 := by
  rw [magnitude, Real.sqrt_eq_zero (by exact_mod_cast sumSqQ_nonneg a)]
  exact Rat.cast_eq_zero

theorem cosine_symm (x y : WeightMap) : cosine_from_weights x y = cosine_from_weights y x := by
  by_cases h1 : x.keys = ∅
  · by_cases h2 : y.keys = ∅ <;> simp [cosine_from_weights, h1, h2]
  · by_cases h2 : y.keys = ∅
    · simp [cosine_from_weights, h1, h2]
    · simp only [cosine_from_weights, h1, h2, or_self, or_false, false_or, if_false]
      rw [mul_comm (magnitude x) (magnitude y), dotQ_comm x y]

theorem cosine_zero_left (x y : WeightMap) (h : x.keys = ∅ ∨ sumSqQ x = 0) :
    cosine_from_weights x y = 0 := by
  rcases h with h | h
  · simp [cosine_from_weights, h]
  · by_cases hk : x.keys = ∅ ∨ y.keys = ∅
    · simp [cosine_from_weights, hk]
    · have hm : magnitude x = 0 := (magnitude_eq_zero x).mpr h
      simp [cosine_from_weights, hk, hm]

theorem sumSqQ_wit : sumSqQ ⟨{"a"}, fun _ => 1⟩ ≠ 0 := by
  simp [sumSqQ]

/-- Claim C6: cosine overlap is symmetric, equals 1 exactly (hence within
1e-3) on self-comparison when the keyword-weight map has nonzero
magnitude, returns 0 when either map is empty or has zero magnitude, is
clamped to [0, 1], and is invariant under scaling one map's weights by a
positive constant. -/
theorem C6_cosine_from_weights (a b : WeightMap) :
    cosine_from_weights a b = cosine_from_weights b a
    ∧ (sumSqQ a ≠ 0 →
        cosine_from_weights a a = 1 ∧ |cosine_from_weights a a - 1| ≤ 1 / 1000)
    ∧ (a.keys = ∅ ∨ sumSqQ a = 0 →
        cosine_from_weights a b = 0 ∧ cosine_from_weights b a = 0)
    ∧ (0 ≤ cosine_from_weights a b ∧ cosine_from_weights a b ≤ 1)
    ∧ (∀ c : ℚ, 0 < c → cosine_from_weights (scaleMap c a) b = cosine_from_weights a b) := by
  refine ⟨cosine_symm a b, ?_, ?_, ?_, ?_⟩
  · intro hS
    have hkeys : ¬ a.keys = ∅ := by
      intro h
      exact hS (by rw [sumSqQ, h, Finset.sum_empty])
    have hmag : magnitude a * magnitude a = ((sumSqQ a : ℚ) : ℝ) :=
      Real.mul_self_sqrt (by exact_mod_cast sumSqQ_nonneg a)
    have hmagne : magnitude a * magnitude a ≠ 0 := by
      rw [hmag]
      exact_mod_cast hS
    have h1 : cosine_from_weights a a = 1 := by
      rw [cosine_from_weights, if_neg (by simp [hkeys])]
      simp only
      rw [if_neg hmagne, hmag, dotQ_self, div_self (by exact_mod_cast hS), clampR]
      norm_num
    exact ⟨h1, by rw [h1]; norm_num⟩
  · intro h
    exact ⟨cosine_zero_left a b h, by rw [cosine_symm b a]; exact cosine_zero_left a b h⟩
  · by_cases h1 : a.keys = ∅ ∨ b.keys = ∅
    · simp [cosine_from_weights, h1]
    · rw [cosine_from_weights, if_neg h1]
      simp only
      split_ifs with h2
      · norm_num
      · exact ⟨le_min (le_max_right _ 0) zero_le_one, min_le_right _ _⟩
  · intro c hc
    have hsum : sumSqQ (scaleMap c a) = c ^ 2 * sumSqQ a := by
      rw [sumSqQ, sumSqQ, Finset.mul_sum]
      exact Finset.sum_congr rfl fun k _ => by show (c * a.w k) * (c * a.w k) = _; ring
    have hcpos : (0 : ℝ) < (c : ℝ) := by exact_mod_cast hc
    have hmagS : magnitude (scaleMap c a) = (c : ℝ) * magnitude a := by
      rw [magnitude, magnitude, hsum]
      push_cast
      rw [Real.sqrt_mul (by positivity) ((sumSqQ a : ℚ) : ℝ), Real.sqrt_sq hcpos.le]
    have hkeq : (scaleMap c a).keys = a.keys := rfl
    by_cases hk : a.keys = ∅ ∨ b.keys = ∅
    · rw [cosine_from_weights, cosine_from_weights, hkeq, if_pos hk, if_pos hk]
    · rw [cosine_from_weights, cosine_from_weights, hkeq, if_neg hk, if_neg hk]
      simp only
      have hcne : (c : ℝ) ≠ 0 := ne_of_gt hcpos
      by_cases hd : magnitude a * magnitude b = 0
      · rw [hmagS, mul_assoc, hd, mul_zero]
        simp
      · have hd2 : (c : ℝ) * (magnitude a * magnitude b) ≠ 0 := mul_ne_zero hcne hd
        rw [hmagS, mul_assoc, if_neg hd2, if_neg hd]
        have hdot : dotQ (scaleMap c a) b = c * dotQ a b := by
          rw [dotQ, dotQ, Finset.mul_sum]
          exact Finset.sum_congr rfl fun k _ => by
            show (c * a.w k) * b.w k = _
            ring
        rw [hdot]
        push_cast
        rw [mul_div_mul_left _ _ hcne]

theorem C6_cosine_from_weights_witness :
    sumSqQ ⟨{"a"}, fun _ => 1⟩ ≠ 0 ∧
    cosine_from_weights ⟨{"a"}, fun _ => 1⟩ ⟨{"a"}, fun _ => 1⟩ = 1 ∧
    cosine_from_weights (scaleMap 2 ⟨{"a"}, fun _ => 1⟩) ⟨{"a"}, fun _ => 1⟩ =
      cosine_from_weights ⟨{"a"}, fun _ => 1⟩ ⟨{"a"}, fun _ => 1⟩ :=
  ⟨sumSqQ_wit,
    ((C6_cosine_from_weights ⟨{"a"}, fun _ => 1⟩ ⟨{"a"}, fun _ => 1⟩).2.1 sumSqQ_wit).1,
    (C6_cosine_from_weights ⟨{"a"}, fun _ => 1⟩ ⟨{"a"}, fun _ => 1⟩).2.2.2.2 2 two_pos⟩

theorem orderedInsert_map_of_iff (r : α → α → Prop) [DecidableRel r] (g : α → α)
    (hg : ∀ a b, r (g a) (g b) ↔ r a b) (x : α) (l : List α) :
    List.orderedInsert r (g x) (l.map g) = (List.orderedInsert r x l).map g := by
  induction l with
  | nil => rfl
  | cons y ys ih =>
    simp only [List.map_cons, List.orderedInsert]
    by_cases h : r x y
    · rw [if_pos ((hg x y).mpr h), if_pos h, List.map_cons, List.map_cons]
    · rw [if_neg (fun hc => h ((hg x y).mp hc)), if_neg h, List.map_cons, ih]

theorem insertionSort_map_of_iff (r : α → α → Prop) [DecidableRel r] (g : α → α)
    (hg : ∀ a b, r (g a) (g b) ↔ r a b) :
    ∀ l : List α, List.insertionSort r (l.map g) = (List.insertionSort r l).map g := by
  intro l
  induction l with
  | nil => rfl
  | cons x xs ih =>
    simp only [List.map_cons, List.insertionSort, ih, orderedInsert_map_of_iff r g hg]

theorem recomputeTier_set_tier (f : AccountScore → Option String) (r : AccountScore) :
    recomputeTier { r with threat_tier := f r } = recomputeTier r := by
  cases r
  rfl

/-- Claim C4: `get_ranked_threats` returns exactly the stored rows whose
`threat_score` satisfies `score ≥ min_score` (a NULL score never passes),
ordered by score descending, with every returned tier recomputed from the
stored score by the pure threshold function (`High ≥ 76`, `Elevated ≥ 51`,
`Watch ≥ 26`, else `Low`, NaN falling through to `Low`); the stored tier
string never affects the result. -/
theorem C4_get_ranked_threats (rows : List AccountScore) (m : ℚ) :
    (get_ranked_threats rows m).Perm ((rows.filter (scorePasses m)).map recomputeTier)
    ∧ List.Sorted rankDesc (get_ranked_threats rows m)
    ∧ (∀ r ∈ get_ranked_threats rows m,
        r.threat_tier = r.threat_score.map (fun s => (ThreatTier.fromScoreQ s).as_str)
        ∧ ∃ r0 ∈ rows, scorePasses m r0 = true ∧ r = recomputeTier r0)
    ∧ (∀ r0 ∈ rows, scorePasses m r0 = true → recomputeTier r0 ∈ get_ranked_threats rows m)
    ∧ (∀ f : AccountScore → Option String,
        get_ranked_threats (rows.map (fun r => { r with threat_tier := f r })) m =
          get_ranked_threats rows m)
    ∧ ThreatTier.from_score .nan = .Low
    ∧ (∀ s : ℚ, ThreatTier.fromScoreQ s =
        if 76 ≤ s then .High else if 51 ≤ s then .Elevated else if 26 ≤ s then .Watch
        else .Low) := by
  refine ⟨(List.perm_insertionSort _ _).map recomputeTier, ?_, ?_, ?_, ?_, rfl, fromScoreQ_eq⟩
  · haveI : IsTotal AccountScore rankDesc := ⟨fun a b => le_total _ _⟩
    haveI : IsTrans AccountScore rankDesc := ⟨fun _ _ _ hab hbc => le_trans hbc hab⟩
    have hs := List.sorted_insertionSort rankDesc (rows.filter (scorePasses m))
    exact List.Pairwise.map recomputeTier (fun _ _ hab => hab) hs
  · intro r hr
    rw [get_ranked_threats, List.mem_map] at hr
    obtain ⟨r0, hr0, rfl⟩ := hr
    have hr0' : r0 ∈ rows.filter (scorePasses m) :=
      (List.perm_insertionSort _ _).mem_iff.mp hr0
    rw [List.mem_filter] at hr0'
    exact ⟨rfl, r0, hr0'.1, hr0'.2, rfl⟩
  · intro r0 hr0 hp
    refine List.mem_map.mpr ⟨r0, ?_, rfl⟩
    exact (List.perm_insertionSort _ _).mem_iff.mpr (List.mem_filter.mpr ⟨hr0, hp⟩)
  · intro f
    unfold get_ranked_threats
    have hpf : (fun r => scorePasses m { r with threat_tier := f r }) = scorePasses m := by
      funext r
      rfl
    rw [List.filter_map, Function.comp_def, hpf,
      insertionSort_map_of_iff rankDesc (fun r => { r with threat_tier := f r })
        (fun _ _ => Iff.rfl), List.map_map]
    refine List.map_congr_left (fun r _ => ?_)
    show recomputeTier { r with threat_tier := f r } = recomputeTier r
    exact recomputeTier_set_tier f r

theorem C4_get_ranked_threats_witness :
    (⟨"did:w", "h", none, none, some 80, some "Low", 0, "[]", "", none⟩ : AccountScore) ∈
        ([⟨"did:w", "h", none, none, some 80, some "Low", 0, "[]", "", none⟩] :
          List AccountScore)
    ∧ scorePasses 0 ⟨"did:w", "h", none, none, some 80, some "Low", 0, "[]", "", none⟩ = true
    ∧ recomputeTier ⟨"did:w", "h", none, none, some 80, some "Low", 0, "[]", "", none⟩ ∈
        get_ranked_threats [⟨"did:w", "h", none, none, some 80, some "Low", 0, "[]", "", none⟩] 0 :=
  ⟨List.mem_singleton.mpr rfl, by decide,
    (C4_get_ranked_threats [⟨"did:w", "h", none, none, some 80, some "Low", 0, "[]", "", none⟩]
      0).2.2.2.1 ⟨"did:w", "h", none, none, some 80, some "Low", 0, "[]", "", none⟩
      (List.mem_singleton.mpr rfl) (by decide)⟩

theorem processRecords_cons (kind subject : String) (r0 : BacklinkRecord)
    (rs : List BacklinkRecord) (st : List AmplificationNotification × Finset String) :
    processRecords kind subject (r0 :: rs) st =
      processRecords kind subject rs
        (if ampPostUri r0 ∈ st.2 then st
         else (st.1 ++ [mkEvent kind subject r0], insert (ampPostUri r0) st.2)) := rfl

theorem processRecords_append (kind subject : String) (recs : List BacklinkRecord) :
    ∀ st, ∃ ext, (processRecords kind subject recs st).1 = st.1 ++ ext := by
  induction recs with
  | nil => exact fun st => ⟨[], (List.append_nil _).symm⟩
  | cons r rs ih =>
    intro st
    rw [processRecords_cons]
    by_cases h : ampPostUri r ∈ st.2
    · rw [if_pos h]
      exact ih st
    · rw [if_neg h]
      obtain ⟨ext, hext⟩ := ih (st.1 ++ [mkEvent kind subject r], insert (ampPostUri r) st.2)
      exact ⟨mkEvent kind subject r :: ext, by rw [hext]; simp⟩

theorem processRecords_seen (kind subject : String) (recs : List BacklinkRecord) :
    ∀ st, (processRecords kind subject recs st).2 = st.2 ∪ (recs.map ampPostUri).toFinset := by
  induction recs with
  | nil => intro st; simp [processRecords]
  | cons r rs ih =>
    intro st
    rw [processRecords_cons]
    by_cases h : ampPostUri r ∈ st.2
    · rw [if_pos h, ih, List.map_cons, List.toFinset_cons, Finset.union_insert,
        Finset.insert_eq_self.mpr (Finset.mem_union_left _ h)]
    · rw [if_neg h, ih, List.map_cons, List.toFinset_cons, Finset.insert_union,
        Finset.union_insert]

theorem processRecords_covers (kind subject : String) (recs : List BacklinkRecord) :
    ∀ st, ∀ r ∈ recs, ampPostUri r ∉ st.2 →
      ∃ e ∈ (processRecords kind subject recs st).1,
        e.amplifier_post_uri = ampPostUri r ∧ e.event_type = kind := by
  induction recs with
  | nil => intro st r hr; cases hr
  | cons r0 rs ih =>
    intro st r hr hnot
    rw [processRecords_cons]
    by_cases h : ampPostUri r0 ∈ st.2
    · rw [if_pos h]
      rcases List.mem_cons.mp hr with heq | hmem
      · exact absurd h (heq ▸ hnot)
      · exact ih st r hmem hnot
    · rw [if_neg h]
      by_cases hu : ampPostUri r = ampPostUri r0
      · obtain ⟨ext, hext⟩ := processRecords_append kind subject rs
          (st.1 ++ [mkEvent kind subject r0], insert (ampPostUri r0) st.2)
        refine ⟨mkEvent kind subject r0, ?_, hu.symm, rfl⟩
        rw [hext]
        simp
      · have hr2 : r ∈ rs := by
          rcases List.mem_cons.mp hr with heq | hmem
          · exact absurd (congrArg ampPostUri heq) hu
          · exact hmem
        have hnot2 : ampPostUri r ∉
            (st.1 ++ [mkEvent kind subject r0], insert (ampPostUri r0) st.2).2 := by
          simp only [Finset.mem_insert]
          rintro (hc | hc)
          · exact hu hc
          · exact hnot hc
        exact ih _ r hr2 hnot2

theorem processRecords_good (kind subject : String) (recs : List BacklinkRecord) :
    ∀ st, ((st.1.map fun e => e.amplifier_post_uri).Nodup ∧
        ∀ e ∈ st.1, e.amplifier_post_uri ∈ st.2) →
      (((processRecords kind subject recs st).1.map fun e => e.amplifier_post_uri).Nodup ∧
        ∀ e ∈ (processRecords kind subject recs st).1,
          e.amplifier_post_uri ∈ (processRecords kind subject recs st).2) := by
  induction recs with
  | nil => exact fun st h => h
  | cons r rs ih =>
    intro st h
    rw [processRecords_cons]
    by_cases hmem : ampPostUri r ∈ st.2
    · rw [if_pos hmem]
      exact ih st h
    · rw [if_neg hmem]
      refine ih _ ⟨?_, ?_⟩
      · rw [List.map_append, List.nodup_append]
        refine ⟨h.1, List.nodup_singleton _, ?_⟩
        intro x hx hx2
        obtain ⟨e, he, rfl⟩ := List.mem_map.mp hx
        rw [List.map_singleton, List.mem_singleton] at hx2
        have hx3 : e.amplifier_post_uri = ampPostUri r := hx2
        exact hmem (hx3 ▸ h.2 e he)
      · intro e he
        rcases List.mem_append.mp he with he | he
        · exact Finset.mem_insert_of_mem (h.2 e he)
        · rw [List.mem_singleton] at he
          subst he
          exact Finset.mem_insert_self _ _

theorem processUri_append (f : String → LinkSource → Except String (List BacklinkRecord))
    (u : String) (st : List AmplificationNotification × Finset String) :
    ∃ ext, (processUri f u st).1 = st.1 ++ ext := by
  obtain ⟨e1, h1⟩ := processRecords_append "quote" u (recsOf f u .quote) st
  obtain ⟨e2, h2⟩ := processRecords_append "repost" u (recsOf f u .repost)
    (processRecords "quote" u (recsOf f u .quote) st)
  exact ⟨e1 ++ e2, by rw [processUri, h2, h1, List.append_assoc]⟩

theorem processUri_seen (f : String → LinkSource → Except String (List BacklinkRecord))
    (u : String) (st : List AmplificationNotification × Finset String) :
    (processUri f u st).2 = st.2 ∪ (uriRecs f u).toFinset := by
  rw [processUri, processRecords_seen, processRecords_seen, uriRecs, List.toFinset_append,
    Finset.union_assoc]

theorem foldl_processUri_append (f : String → LinkSource → Except String (List BacklinkRecord)) :
    ∀ (us : List String) st,
      ∃ ext, (us.foldl (fun st u => processUri f u st) st).1 = st.1 ++ ext := by
  intro us
  induction us with
  | nil => exact fun st => ⟨[], (List.append_nil _).symm⟩
  | cons u rest ih =>
    intro st
    obtain ⟨e2, h2⟩ := ih (processUri f u st)
    obtain ⟨e1, h1⟩ := processUri_append f u st
    exact ⟨e1 ++ e2, by simp only [List.foldl_cons]; rw [h2, h1, List.append_assoc]⟩

theorem foldl_seen_not_mem (f : String → LinkSource → Except String (List BacklinkRecord)) :
    ∀ (us : List String) st (x : String), x ∉ st.2 → (∀ u ∈ us, x ∉ uriRecs f u) →
      x ∉ (us.foldl (fun st u => processUri f u st) st).2 := by
  intro us
  induction us with
  | nil => exact fun st x hx _ => hx
  | cons u rest ih =>
    intro st x hx hall
    simp only [List.foldl_cons]
    refine ih _ x ?_ (fun u' hu' => hall u' (List.mem_cons_of_mem u hu'))
    rw [processUri_seen]
    simp only [Finset.mem_union, List.mem_toFinset]
    rintro (h | h)
    · exact hx h
    · exact hall u (List.mem_cons_self u rest) h

theorem foldl_processUri_good (f : String → LinkSource → Except String (List BacklinkRecord)) :
    ∀ (us : List String) st, ((st.1.map fun e => e.amplifier_post_uri).Nodup ∧
        ∀ e ∈ st.1, e.amplifier_post_uri ∈ st.2) →
      (((us.foldl (fun st u => processUri f u st) st).1.map
          fun e => e.amplifier_post_uri).Nodup ∧
        ∀ e ∈ (us.foldl (fun st u => processUri f u st) st).1,
          e.amplifier_post_uri ∈ (us.foldl (fun st u => processUri f u st) st).2) := by
  intro us
  induction us with
  | nil => exact fun st h => h
  | cons u rest ih =>
    intro st h
    simp only [List.foldl_cons]
    exact ih _ (processRecords_good "repost" u _ _ (processRecords_good "quote" u _ _ h))

/-- Claim C10: `find_amplification_events` emits at most one event per
amplifier-post URI; because the quote query of each subject is processed
before its repost query, an amplifier post that appears in the quote
result set (and was not already claimed by an earlier subject's results)
is kept with event kind "quote"; per-URI query failures contribute nothing
instead of failing the whole call (replacing every failed query by an
empty success leaves the result unchanged). -/
theorem C10_find_amplification_events (uris : List String)
    (f : String → LinkSource → Except String (List BacklinkRecord)) :
    ((find_amplification_events uris f).map fun e => e.amplifier_post_uri).Nodup
    ∧ (∀ pre u post, uris = pre ++ u :: post →
        ∀ r ∈ recsOf f u .quote,
          (∀ u' ∈ pre, ampPostUri r ∉ uriRecs f u') →
          ∃ e ∈ find_amplification_events uris f,
            e.amplifier_post_uri = ampPostUri r ∧ e.event_type = "quote")
    ∧ find_amplification_events uris f =
        find_amplification_events uris (fun u s => .ok (recsOf f u s)) := by
  refine ⟨(foldl_processUri_good f uris ([], ∅) (by simp)).1, ?_, rfl⟩
  intro pre u post huris r hr hpre
  subst huris
  rw [find_amplification_events, List.foldl_append]
  simp only [List.foldl_cons]
  set st1 := pre.foldl (fun st u => processUri f u st) ([], ∅) with hst1
  have hx : ampPostUri r ∉ st1.2 := by
    rw [hst1]
    exact foldl_seen_not_mem f pre ([], ∅) (ampPostUri r) (by simp) hpre
  obtain ⟨e, he, heuri, hekind⟩ :=
    processRecords_covers "quote" u (recsOf f u .quote) st1 r hr hx
  obtain ⟨e2, h2⟩ := processRecords_append "repost" u (recsOf f u .repost)
    (processRecords "quote" u (recsOf f u .quote) st1)
  obtain ⟨e3, h3⟩ := foldl_processUri_append f post (processUri f u st1)
  refine ⟨e, ?_, heuri, hekind⟩
  rw [h3, processUri, h2]
  exact List.mem_append_left _ (List.mem_append_left _ he)

theorem C10_find_amplification_events_witness :
    (⟨"d", "app.bsky.feed.post", "r1"⟩ : BacklinkRecord) ∈
      recsOf (fun _ s => match s with
        | .quote => .ok [⟨"d", "app.bsky.feed.post", "r1"⟩]
        | .repost => .ok [⟨"d", "app.bsky.feed.post", "r1"⟩]) "s" .quote
    ∧ ∃ e ∈ find_amplification_events ["s"] (fun _ s => match s with
        | .quote => .ok [⟨"d", "app.bsky.feed.post", "r1"⟩]
        | .repost => .ok [⟨"d", "app.bsky.feed.post", "r1"⟩]),
        e.amplifier_post_uri = ampPostUri ⟨"d", "app.bsky.feed.post", "r1"⟩ ∧
        e.event_type = "quote" :=
  ⟨by decide,
    (C10_find_amplification_events ["s"] (fun _ s => match s with
      | .quote => .ok [⟨"d", "app.bsky.feed.post", "r1"⟩]
      | .repost => .ok [⟨"d", "app.bsky.feed.post", "r1"⟩])).2.1 [] "s" [] rfl
      ⟨"d", "app.bsky.feed.post", "r1"⟩ (by decide) (fun u' hu' => absurd hu' (by simp))⟩

theorem with_retry_aux_unfold (op : ℕ → Except String α) (nanos : ℕ → ℕ) (a c : ℕ)
    (s : List ℚ) :
    with_retry_aux op nanos a c s =
      match op c with
      | .ok v => (.ok v, c + 1, s)
      | .error e =>
        if is_rate_limit_error e = false ∨ MAX_RETRIES ≤ a then (.error e, c + 1, s)
        else with_retry_aux op nanos (a + 1) (c + 1)
          (s ++ [jitteredBackoff (a + 1) (nanos a)]) := by
  rw [with_retry_aux]

theorem with_retry_aux_spec (op : ℕ → Except String α) (nanos : ℕ → ℕ) :
    ∀ (n a c : ℕ) (s : List ℚ), MAX_RETRIES - a ≤ n →
      c < (with_retry_aux op nanos a c s).2.1 ∧
      (with_retry_aux op nanos a c s).2.1 ≤ c + (MAX_RETRIES - a) + 1 ∧
      (∀ k, c ≤ k → k + 1 < (with_retry_aux op nanos a c s).2.1 →
        ∃ e, op k = .error e ∧ is_rate_limit_error e = true) ∧
      (with_retry_aux op nanos a c s).2.2 = s ++
        (List.range ((with_retry_aux op nanos a c s).2.1 - 1 - c)).map
          (fun j => jitteredBackoff (a + j + 1) (nanos (a + j))) := by
  intro n
  induction n with
  | zero =>
    intro a c s hn
    rw [with_retry_aux_unfold]
    cases hop : op c with
    | ok v =>
      dsimp only
      exact ⟨Nat.lt_succ_self c, by omega, fun k hk hklt => absurd hklt (by omega), by simp⟩
    | error e =>
      dsimp only
      have ha : MAX_RETRIES ≤ a := by omega
      rw [if_pos (Or.inr ha)]
      dsimp only
      exact ⟨Nat.lt_succ_self c, by omega, fun k hk hklt => absurd hklt (by omega), by simp⟩
  | succ n ih =>
    intro a c s hn
    rw [with_retry_aux_unfold]
    cases hop : op c with
    | ok v =>
      dsimp only
      exact ⟨Nat.lt_succ_self c, by omega, fun k hk hklt => absurd hklt (by omega), by simp⟩
    | error e =>
      dsimp only
      by_cases hcond : is_rate_limit_error e = false ∨ MAX_RETRIES ≤ a
      · rw [if_pos hcond]
        dsimp only
        exact ⟨Nat.lt_succ_self c, by omega, fun k hk hklt => absurd hklt (by omega), by simp⟩
      · rw [if_neg hcond]
        have hrl : is_rate_limit_error e = true := by
          rcases Bool.eq_false_or_eq_true (is_rate_limit_error e) with h | h
          · exact h
          · exact (hcond (Or.inl h)).elim
        have ha : a < MAX_RETRIES := by
          by_contra hge
          exact hcond (Or.inr (Nat.le_of_not_lt hge))
        obtain ⟨h1, h2, h3, h4⟩ :=
          ih (a + 1) (c + 1) (s ++ [jitteredBackoff (a + 1) (nanos a)]) (by omega)
        refine ⟨by omega, by omega, ?_, ?_⟩
        · intro k hk hklt
          rcases Nat.eq_or_lt_of_le hk with heq | hlt
          · exact ⟨e, by rw [heq] at hop; exact hop, hrl⟩
          · exact h3 k hlt hklt
        · rw [h4, List.append_assoc]
          congr 1
          have hR : (with_retry_aux op nanos (a + 1) (c + 1)
              (s ++ [jitteredBackoff (a + 1) (nanos a)])).2.1 - 1 - c =
              ((with_retry_aux op nanos (a + 1) (c + 1)
                (s ++ [jitteredBackoff (a + 1) (nanos a)])).2.1 - 1 - (c + 1)) + 1 := by
            omega
          rw [hR, List.range_succ_eq_map, List.map_cons, List.map_map]
          refine List.cons_eq_cons.mpr ⟨by norm_num, List.map_congr_left (fun j _ => ?_)⟩
          show jitteredBackoff (a + 1 + j + 1) (nanos (a + 1 + j)) =
            jitteredBackoff (a + (j + 1) + 1) (nanos (a + (j + 1)))
          congr 2 <;> omega

/-- Claim C7: the retry wrapper invokes the operation at most
`MAX_RETRIES + 1 = 6` times; every non-final invocation failed with an
error matching the rate-limit pattern (contains "429" or, after ASCII
lower-casing, "rate limit" or "ratelimit"); a first invocation failing
with a non-matching error is returned immediately after that single
invocation with no sleeps; the sleeps performed are exactly
`backoff(attempt) · jitter` with `backoff(attempt) = min(2·2^attempt, 60)`
seconds and the jitter factor bounded within ±25 percent. -/
theorem C7_with_retry (op : ℕ → Except String α) (nanos : ℕ → ℕ) :
    (with_retry op nanos).2.1 ≤ MAX_RETRIES + 1
    ∧ (∀ k, k + 1 < (with_retry op nanos).2.1 →
        ∃ e, op k = .error e ∧ is_rate_limit_error e = true)
    ∧ (∀ e, op 0 = .error e → is_rate_limit_error e = false →
        with_retry op nanos = (.error e, 1, []))
    ∧ (with_retry op nanos).2.2 =
        (List.range ((with_retry op nanos).2.1 - 1)).map
          (fun j => jitteredBackoff (j + 1) (nanos j))
    ∧ (∀ a m, backoffSecs a = min (2 * 2 ^ a) 60 ∧
        3 / 4 * (backoffSecs a : ℚ) ≤ jitteredBackoff a m ∧
        jitteredBackoff a m ≤ 5 / 4 * (backoffSecs a : ℚ)) := by
  obtain ⟨h1, h2, h3, h4⟩ := with_retry_aux_spec op nanos MAX_RETRIES 0 0 [] (by omega)
  refine ⟨by simpa using h2, fun k hk => h3 k (Nat.zero_le k) hk, ?_, ?_, ?_⟩
  · intro e hop hno
    show with_retry_aux op nanos 0 0 [] = (.error e, 1, [])
    rw [with_retry_aux_unfold, hop]
    dsimp only
    rw [if_pos (Or.inl hno)]
  · show (with_retry_aux op nanos 0 0 []).2.2 =
      (List.range ((with_retry_aux op nanos 0 0 []).2.1 - 1)).map
        (fun j => jitteredBackoff (j + 1) (nanos j))
    rw [h4]
    simp
  · intro a m
    have hB : (0 : ℚ) ≤ (backoffSecs a : ℚ) := by positivity
    have hmod : ((m % 500 : ℕ) : ℚ) ≤ 499 := by
      exact_mod_cast Nat.le_of_lt_succ (Nat.mod_lt m (by norm_num))
    have hmod0 : (0 : ℚ) ≤ ((m % 500 : ℕ) : ℚ) := by positivity
    have hf1 : (3 : ℚ) / 4 ≤ jitterFactor m := by
      unfold jitterFactor
      have : (0 : ℚ) ≤ ((m % 500 : ℕ) : ℚ) / 1000 := by positivity
      norm_num
      linarith
    have hf2 : jitterFactor m ≤ 5 / 4 := by
      unfold jitterFactor
      have : ((m % 500 : ℕ) : ℚ) / 1000 ≤ 499 / 1000 := by linarith
      norm_num
      linarith
    refine ⟨rfl, ?_, ?_⟩
    · calc 3 / 4 * (backoffSecs a : ℚ) = (backoffSecs a : ℚ) * (3 / 4) := by ring
        _ ≤ (backoffSecs a : ℚ) * jitterFactor m := mul_le_mul_of_nonneg_left hf1 hB
        _ = jitteredBackoff a m := rfl
    · calc jitteredBackoff a m = (backoffSecs a : ℚ) * jitterFactor m := rfl
        _ ≤ (backoffSecs a : ℚ) * (5 / 4) := mul_le_mul_of_nonneg_left hf2 hB
        _ = 5 / 4 * (backoffSecs a : ℚ) := by ring

theorem C7_with_retry_witness :
    (fun _ : ℕ => (.error "connection refused" : Except String ℕ)) 0 =
      .error "connection refused"
    ∧ is_rate_limit_error "connection refused" = false
    ∧ with_retry (fun _ : ℕ => (.error "connection refused" : Except String ℕ))
        (fun _ => 0) = (.error "connection refused", 1, []) :=
  ⟨rfl, by decide,
    (C7_with_retry (fun _ : ℕ => (.error "connection refused" : Except String ℕ))
      (fun _ => 0)).2.2.1 "connection refused" rfl (by decide)⟩

/-- Claim C8: on the postgres backend `save_embedding` fails when no
fingerprint row exists (and leaves the state unchanged), but on the sqlite
backend the same call succeeds as a silent no-op — the UPDATE matches zero
rows, nothing is stored, and no error is reported; when the row exists
both backends store the vector and a subsequent load returns it. -/
theorem C8_save_embedding_divergence :
    SqliteDb.save_embedding ⟨none⟩ [1] = (.ok (), ⟨none⟩)
    ∧ SqliteDb.get_embedding (SqliteDb.save_embedding ⟨none⟩ [1]).2 = .ok none
    ∧ PgDb.save_embedding ⟨none⟩ [1] =
        (.error "save_embedding: no fingerprint row found", ⟨none⟩)
    ∧ (∀ (row : FingerprintRow) (v : List ℚ),
        SqliteDb.save_embedding ⟨some row⟩ v =
          (.ok (), ⟨some { row with embedding_vector := some v }⟩)
        ∧ PgDb.save_embedding ⟨some row⟩ v =
          (.ok (), ⟨some { row with embedding_vector := some v }⟩)
        ∧ SqliteDb.get_embedding (SqliteDb.save_embedding ⟨some row⟩ v).2 = .ok (some v)
        ∧ PgDb.get_embedding (PgDb.save_embedding ⟨some row⟩ v).2 = .ok (some v)) :=
  ⟨rfl, rfl, rfl, fun _ _ => ⟨rfl, rfl, rfl, rfl⟩⟩


theorem lexLe_total : ∀ as bs : List Char, lexLe as bs = true ∨ lexLe bs as = true := by
  intro as
  induction as with
  | nil => intro bs; exact Or.inl rfl
  | cons a as ih =>
    intro bs
    cases bs with
    | nil => exact Or.inr rfl
    | cons b bs =>
      rcases lt_trichotomy a b with h | h | h
      · exact Or.inl (by simp [lexLe, h])
      · subst h
        rcases ih bs with h2 | h2
        · exact Or.inl (by simp [lexLe, lt_self_iff_false, h2])
        · exact Or.inr (by simp [lexLe, lt_self_iff_false, h2])
      · exact Or.inr (by simp [lexLe, h])

theorem lexLe_trans :
    ∀ as bs cs : List Char, lexLe as bs = true → lexLe bs cs = true → lexLe as cs = true := by
  intro as
  induction as with
  | nil => intro bs cs _ _; rfl
  | cons a as ih =>
    intro bs cs h1 h2
    cases bs with
    | nil => simp [lexLe] at h1
    | cons b bs =>
      cases cs with
      | nil => simp [lexLe] at h2
      | cons c cs =>
        rcases lt_trichotomy a b with hab | hab | hab
        · rcases lt_trichotomy b c with hbc | hbc | hbc
          · exact (by simp [lexLe, lt_trans hab hbc])
          · subst hbc
            simp [lexLe, hab]
          · simp only [lexLe] at h2
            rw [if_neg (asymm hbc), if_pos hbc] at h2
            cases h2
        · subst hab
          rcases lt_trichotomy a c with hac | hac | hac
          · simp [lexLe, hac]
          · subst hac
            simp only [lexLe, lt_self_iff_false, if_false] at h1 h2 ⊢
            exact ih bs cs h1 h2
          · simp only [lexLe] at h2
            rw [if_neg (asymm hac), if_pos hac] at h2
            cases h2
        · simp only [lexLe] at h1
          rw [if_neg (asymm hab), if_pos hab] at h1
          cases h1

theorem byTs_total : ∀ a b : String × String, byTs a b ∨ byTs b a := fun a b =>
  lexLe_total a.2.toList b.2.toList

theorem byTs_trans : ∀ a b c : String × String, byTs a b → byTs b c → byTs a c :=
  fun _ _ _ hab hbc => lexLe_trans _ _ _ hab hbc

theorem parsed_pairwise (events : List PileEvent) (uri : String)
    (hco : tsCoherent events uri) :
    (parsedEvents (List.insertionSort byTs (postEvents events uri))).Pairwise
      (fun p q => p.2 ≤ q.2) := by
  haveI : IsTotal (String × String) byTs := ⟨byTs_total⟩
  haveI : IsTrans (String × String) byTs := ⟨byTs_trans⟩
  have hsorted : (List.insertionSort byTs (postEvents events uri)).Pairwise byTs :=
    List.sorted_insertionSort byTs (postEvents events uri)
  rw [parsedEvents, List.pairwise_filterMap]
  refine hsorted.imp_of_mem ?_
  intro a b ha hb hab x hx y hy
  rw [Option.mem_def, Option.map_eq_some'] at hx hy
  obtain ⟨ta, hta, hxa⟩ := hx
  obtain ⟨tb, htb, hyb⟩ := hy
  have ha' : a ∈ postEvents events uri := (List.perm_insertionSort _ _).mem_iff.mp ha
  have hb' : b ∈ postEvents events uri := (List.perm_insertionSort _ _).mem_iff.mp hb
  rw [postEvents, List.mem_map] at ha' hb'
  obtain ⟨ea, hea, haeq⟩ := ha'
  obtain ⟨eb, heb, hbeq⟩ := hb'
  rw [List.mem_filter] at hea heb
  have h1 := hco ea hea.1 eb heb.1 (by simpa using hea.2) (by simpa using heb.2)
  subst haeq
  subst hbeq
  subst hxa
  subst hyb
  exact h1 ta tb hta htb hab

theorem takeWhile_complete (c : ℤ) :
    ∀ l : List (String × ℤ), l.Pairwise (fun p q => p.2 ≤ q.2) →
      ∀ x ∈ l, x.2 ≤ c → x ∈ l.takeWhile (fun q => decide (q.2 ≤ c)) := by
  intro l
  induction l with
  | nil => intro _ x hx; cases hx
  | cons y ys ih =>
    intro hp x hx hxc
    rw [List.takeWhile_cons]
    rcases List.mem_cons.mp hx with rfl | hmem
    · simp [hxc]
    · have hyx : y.2 ≤ x.2 := (List.pairwise_cons.mp hp).1 x hmem
      have hyc : y.2 ≤ c := le_trans hyx hxc
      simp only [decide_eq_true hyc, if_true]
      exact List.mem_cons_of_mem y (ih (List.pairwise_cons.mp hp).2 x hmem hxc)

theorem mem_windows_foldr (ws : List (Finset String)) (x : String) :
    (x ∈ ws.foldr (fun w acc => if PILE_ON_THRESHOLD ≤ w.card then w ∪ acc else acc) ∅) ↔
      ∃ w ∈ ws, PILE_ON_THRESHOLD ≤ w.card ∧ x ∈ w := by
  induction ws with
  | nil => simp
  | cons w ws ih =>
    simp only [List.foldr_cons]
    by_cases h : PILE_ON_THRESHOLD ≤ w.card
    · rw [if_pos h]
      simp only [Finset.mem_union, ih]
      constructor
      · rintro (hx | ⟨w2, hw2, hc, hx⟩)
        · exact ⟨w, List.mem_cons_self _ _, h, hx⟩
        · exact ⟨w2, List.mem_cons_of_mem _ hw2, hc, hx⟩
      · rintro ⟨w2, hw2, hc, hx⟩
        rcases List.mem_cons.mp hw2 with rfl | hw2
        · exact Or.inl hx
        · exact Or.inr ⟨w2, hw2, hc, hx⟩
    · rw [if_neg h, ih]
      constructor
      · rintro ⟨w2, hw2, hc, hx⟩
        exact ⟨w2, List.mem_cons_of_mem _ hw2, hc, hx⟩
      · rintro ⟨w2, hw2, hc, hx⟩
        rcases List.mem_cons.mp hw2 with rfl | hw2
        · exact absurd hc h
        · exact ⟨w2, hw2, hc, hx⟩

theorem mem_detect_foldr (events : List PileEvent) (us : List String) (x : String) :
    x ∈ us.foldr (fun uri acc => perPost events uri ∪ acc) ∅ ↔
      ∃ u ∈ us, x ∈ perPost events u := by
  induction us with
  | nil => simp
  | cons u rest ih =>
    simp only [List.foldr_cons, Finset.mem_union, ih, List.mem_cons]
    constructor
    · rintro (hx | ⟨u2, hu2, hx⟩)
      · exact ⟨u, Or.inl rfl, hx⟩
      · exact ⟨u2, Or.inr hu2, hx⟩
    · rintro ⟨u2, hor, hx⟩
      rcases hor with rfl | hu2
      · exact Or.inl hx
      · exact Or.inr ⟨u2, hu2, hx⟩

theorem exists_tail_covering (P : α → Prop) :
    ∀ l : List α, (∃ x ∈ l, P x) →
      ∃ x rest, (x :: rest) ∈ l.tails ∧ P x ∧ ∀ y ∈ l, P y → y ∈ x :: rest := by
  intro l
  induction l with
  | nil => rintro ⟨x, hx, _⟩; cases hx
  | cons a as ih =>
    rintro ⟨x, hx, hPx⟩
    by_cases hPa : P a
    · exact ⟨a, as, (List.mem_tails _ _).mpr (List.suffix_refl _), hPa, fun y hy _ => hy⟩
    · have hxas : x ∈ as := by
        rcases List.mem_cons.mp hx with rfl | h
        · exact absurd hPx hPa
        · exact h
      obtain ⟨x2, rest, htails, hP2, hcov⟩ := ih ⟨x, hxas, hPx⟩
      refine ⟨x2, rest, ?_, hP2, ?_⟩
      · exact (List.mem_tails _ _).mpr
          (((List.mem_tails _ _).mp htails).trans (List.suffix_cons a as))
      · intro y hy hPy
        rcases List.mem_cons.mp hy with rfl | h
        · exact absurd hPy hPa
        · exact hcov y h hPy

theorem window_mem_windowSets (l : List (String × ℤ)) (x : String × ℤ)
    (rest : List (String × ℤ)) (h : (x :: rest) ∈ l.tails) :
    ((((x :: rest).takeWhile (fun q => decide (q.2 ≤ x.2 + PILE_ON_WINDOW_SECS))).map
      Prod.fst).toFinset) ∈ windowSets l := by
  rw [windowSets, List.mem_filterMap]
  exact ⟨x :: rest, h, rfl⟩

theorem windowSets_mem_inv (l : List (String × ℤ)) (w : Finset String)
    (hw : w ∈ windowSets l) :
    ∃ x rest, (x :: rest) ∈ l.tails ∧
      w = ((((x :: rest).takeWhile
        (fun q => decide (q.2 ≤ x.2 + PILE_ON_WINDOW_SECS))).map Prod.fst).toFinset) := by
  rw [windowSets, List.mem_filterMap] at hw
  obtain ⟨suf, hsuf, heq⟩ := hw
  cases suf with
  | nil => cases heq
  | cons x rest => exact ⟨x, rest, hsuf, (Option.some_injective _ heq).symm⟩

theorem mem_parsed_iff (events : List PileEvent) (uri : String) (p : String × ℤ) :
    p ∈ parsedEvents (List.insertionSort byTs (postEvents events uri)) ↔
      ∃ e ∈ events, e.2.1 = uri ∧ e.1 = p.1 ∧ rfc3339ToSecs e.2.2 = some p.2 := by
  rw [parsedEvents, List.mem_filterMap]
  constructor
  · rintro ⟨q, hq, heq⟩
    have hq2 : q ∈ postEvents events uri := (List.perm_insertionSort _ _).mem_iff.mp hq
    rw [postEvents, List.mem_map] at hq2
    obtain ⟨e, he, rfl⟩ := hq2
    rw [List.mem_filter] at he
    rw [Option.map_eq_some'] at heq
    obtain ⟨t, ht, hpt⟩ := heq
    subst hpt
    exact ⟨e, he.1, by simpa using he.2, rfl, ht⟩
  · rintro ⟨e, he, huri, h1, h2⟩
    refine ⟨(e.1, e.2.2), ?_, ?_⟩
    · refine (List.perm_insertionSort _ _).mem_iff.mpr ?_
      rw [postEvents, List.mem_map]
      exact ⟨e, List.mem_filter.mpr ⟨he, by simpa using huri⟩, rfl⟩
    · rw [h2, Option.map_some', h1]

/-- Claim C3 (amended): provided the lexicographic order of the timestamp
strings of each post's events agrees with the chronological order of their
parsed instants (`tsCoherent`, true in particular for canonical
fixed-width UTC timestamps), `detect_pile_on_participants` returns a
superset of every set of 5 or more distinct amplifier ids whose parseable
events fall within a 24-hour window on the same post URI, and conversely a
non-empty result implies such a cluster exists (so with no cluster the
result is empty, and duplicate amplifier ids — which can never form 5
distinct ids — never trigger detection, as on the spec's
four-distinct-amplifier example). -/
theorem C3_detect_pile_on (events : List PileEvent) :
    (∀ (uri : String) (T : ℤ) (S : Finset String),
      tsCoherent events uri → 5 ≤ S.card →
      (∀ d ∈ S, hasClusterEvent events uri T d) →
      S ⊆ detect_pile_on_participants events)
    ∧ ((∀ uri, tsCoherent events uri) → detect_pile_on_participants events ≠ ∅ →
        ∃ (uri : String) (T : ℤ) (S : Finset String), 5 ≤ S.card ∧
          ∀ d ∈ S, hasClusterEvent events uri T d)
    ∧ detect_pile_on_participants dupAmplifierEvents = ∅ := by
  refine ⟨?_, ?_, by decide⟩
  · intro uri T S hco hcard hS d hd
    have hpairs : ∀ d2 ∈ S, ∃ t,
        (d2, t) ∈ parsedEvents (List.insertionSort byTs (postEvents events uri)) ∧
        T ≤ t ∧ t ≤ T + PILE_ON_WINDOW_SECS := by
      intro d2 hd2
      obtain ⟨e, he, he1, he2, hwin⟩ := hS d2 hd2
      unfold inWindowProp at hwin
      split at hwin
      · rename_i t heq
        exact ⟨t, (mem_parsed_iff events uri (d2, t)).mpr ⟨e, he, he2, he1, heq⟩,
          hwin.1, hwin.2⟩
      · exact hwin.elim
    have hpw := parsed_pairwise events uri hco
    have hlen : ¬ (parsedEvents (List.insertionSort byTs (postEvents events uri))).length <
        PILE_ON_THRESHOLD := by
      have hsub : S ⊆ ((parsedEvents
          (List.insertionSort byTs (postEvents events uri))).map Prod.fst).toFinset := by
        intro d2 hd2
        obtain ⟨t, hmem, _, _⟩ := hpairs d2 hd2
        rw [List.mem_toFinset]
        exact List.mem_map.mpr ⟨(d2, t), hmem, rfl⟩
      have hc1 : S.card ≤ (parsedEvents
          (List.insertionSort byTs (postEvents events uri))).length := by
        calc S.card ≤ _ := Finset.card_le_card hsub
          _ ≤ _ := List.toFinset_card_le _
          _ = _ := List.length_map _ _
      have h5 : 5 ≤ (parsedEvents
          (List.insertionSort byTs (postEvents events uri))).length := le_trans hcard hc1
      rw [PILE_ON_THRESHOLD]
      omega
    obtain ⟨t0, hmem0, h01, h02⟩ := hpairs d hd
    obtain ⟨x, rest, htails, hPx, hcov⟩ :=
      exists_tail_covering
        (fun q => q.1 ∈ S ∧ T ≤ q.2 ∧ q.2 ≤ T + PILE_ON_WINDOW_SECS)
        (parsedEvents (List.insertionSort byTs (postEvents events uri)))
        ⟨(d, t0), hmem0, hd, h01, h02⟩
    have hsufpw : (x :: rest).Pairwise (fun p q => p.2 ≤ q.2) :=
      List.Pairwise.sublist (List.IsSuffix.sublist ((List.mem_tails _ _).mp htails)) hpw
    have hSsub : ∀ d2 ∈ S, d2 ∈ (((x :: rest).takeWhile
        (fun q => decide (q.2 ≤ x.2 + PILE_ON_WINDOW_SECS))).map Prod.fst).toFinset := by
      intro d2 hd2
      obtain ⟨t, hmem, h1, h2⟩ := hpairs d2 hd2
      have hin : (d2, t) ∈ x :: rest := hcov (d2, t) hmem ⟨hd2, h1, h2⟩
      have hle : t ≤ x.2 + PILE_ON_WINDOW_SECS := by
        have hTx : T ≤ x.2 := hPx.2.1
        omega
      have hW0 : (d2, t) ∈ (x :: rest).takeWhile
          (fun q => decide (q.2 ≤ x.2 + PILE_ON_WINDOW_SECS)) :=
        takeWhile_complete _ _ hsufpw (d2, t) hin hle
      rw [List.mem_toFinset]
      exact List.mem_map.mpr ⟨(d2, t), hW0, rfl⟩
    have hcardW : PILE_ON_THRESHOLD ≤ ((((x :: rest).takeWhile
        (fun q => decide (q.2 ≤ x.2 + PILE_ON_WINDOW_SECS))).map Prod.fst).toFinset).card := by
      calc PILE_ON_THRESHOLD = 5 := rfl
        _ ≤ S.card := hcard
        _ ≤ _ := Finset.card_le_card (fun d2 hd2 => hSsub d2 hd2)
    have hWmem := window_mem_windowSets
      (parsedEvents (List.insertionSort byTs (postEvents events uri))) x rest htails
    have hdper : d ∈ perPost events uri := by
      show d ∈ (if (parsedEvents (List.insertionSort byTs (postEvents events uri))).length <
            PILE_ON_THRESHOLD then (∅ : Finset String)
          else (windowSets (parsedEvents
              (List.insertionSort byTs (postEvents events uri)))).foldr
            (fun w acc => if PILE_ON_THRESHOLD ≤ w.card then w ∪ acc else acc) ∅)
      rw [if_neg hlen]
      exact (mem_windows_foldr _ _).mpr ⟨_, hWmem, hcardW, hSsub d hd⟩
    rw [detect_pile_on_participants]
    refine (mem_detect_foldr events _ d).mpr ⟨uri, ?_, hdper⟩
    obtain ⟨e, he, _, he2, _⟩ := hS d hd
    rw [List.mem_dedup, List.mem_map]
    exact ⟨e, he, he2⟩
  · intro hcoAll hne
    obtain ⟨x, hx⟩ := Finset.nonempty_iff_ne_empty.mpr hne
    rw [detect_pile_on_participants] at hx
    obtain ⟨uri, _, hxper⟩ := (mem_detect_foldr events _ x).mp hx
    have hpw := parsed_pairwise events uri (hcoAll uri)
    have hxper2 : x ∈ (if (parsedEvents
          (List.insertionSort byTs (postEvents events uri))).length < PILE_ON_THRESHOLD
        then (∅ : Finset String)
        else (windowSets (parsedEvents
            (List.insertionSort byTs (postEvents events uri)))).foldr
          (fun w acc => if PILE_ON_THRESHOLD ≤ w.card then w ∪ acc else acc) ∅) := hxper
    by_cases hlen : (parsedEvents
        (List.insertionSort byTs (postEvents events uri))).length < PILE_ON_THRESHOLD
    · rw [if_pos hlen] at hxper2
      exact absurd hxper2 (Finset.not_mem_empty x)
    · rw [if_neg hlen] at hxper2
      obtain ⟨w, hw, hcardw, _⟩ := (mem_windows_foldr _ _).mp hxper2
      obtain ⟨q0, rest, htails, rfl⟩ := windowSets_mem_inv _ w hw
      refine ⟨uri, q0.2, _, hcardw, ?_⟩
      intro d hdw
      rw [List.mem_toFinset] at hdw
      obtain ⟨qd, hqd, rfl⟩ := List.mem_map.mp hdw
      have hqd_suf : qd ∈ q0 :: rest := List.takeWhile_subset _ hqd
      have hdec := List.mem_takeWhile_imp hqd
      have hle : qd.2 ≤ q0.2 + PILE_ON_WINDOW_SECS := of_decide_eq_true hdec
      have hsufpw : (q0 :: rest).Pairwise (fun p q => p.2 ≤ q.2) :=
        List.Pairwise.sublist (List.IsSuffix.sublist ((List.mem_tails _ _).mp htails)) hpw
      have hge : q0.2 ≤ qd.2 := by
        rcases List.mem_cons.mp hqd_suf with heq | hmem
        · rw [heq]
        · exact (List.pairwise_cons.mp hsufpw).1 qd hmem
      have hqp : qd ∈ parsedEvents (List.insertionSort byTs (postEvents events uri)) :=
        (List.IsSuffix.sublist ((List.mem_tails _ _).mp htails)).subset hqd_suf
      obtain ⟨e, he, heuri, he1, herfc⟩ := (mem_parsed_iff events uri qd).mp hqp
      refine ⟨e, he, he1, heuri, ?_⟩
      unfold inWindowProp
      rw [herfc]
      exact ⟨hge, hle⟩

set_option maxRecDepth 4000 in
/-- Claim C3 counterexample: `skewedOffsetEvents` holds five distinct
amplifiers (`skewedCluster`) of one post whose parsed instants all lie in
the 24-hour window starting at epoch second 1704150000, yet `did:a` is
missing from the detector's result: the detector sorts by the raw
timestamp string, and the mixed UTC offsets put the chronologically latest
cluster event first, so the window anchored at it is cut off by the
`did:f` event before reaching the others. -/
theorem C3_counterexample :
    5 ≤ skewedCluster.card
    ∧ (∀ d ∈ skewedCluster,
        hasClusterEvent skewedOffsetEvents "at://post/1" 1704150000 d)
    ∧ "did:a" ∈ skewedCluster
    ∧ "did:a" ∉ detect_pile_on_participants skewedOffsetEvents := by
  refine ⟨by decide, by decide, by decide, by decide⟩

set_option maxRecDepth 4000 in
theorem C3_detect_pile_on_witness :
    tsCoherent hourlyEvents "at://post/1"
    ∧ 5 ≤ hourlyCluster.card
    ∧ (∀ d ∈ hourlyCluster,
        hasClusterEvent hourlyEvents "at://post/1" 1771495200 d)
    ∧ hourlyCluster ⊆ detect_pile_on_participants hourlyEvents :=
  ⟨by decide, by decide, by decide,
    (C3_detect_pile_on hourlyEvents).1 "at://post/1" 1771495200 hourlyCluster
      (by decide) (by decide) (by decide)⟩
